import Mathlib

/-!
Verification of the bank-statement ingestion and normalization engine of a
personal-finance tracker.  The engine lives in a single React component; its
algorithmic core is a CSV tokenizer (`parseCsv`), a date normalizer
(`toIsoDate`, `parseDateFromParts`, `normalizeDate`), an amount normalizer
(`parseAmount`), a per-date deduplicator/aggregator (`dedupedRows`, split here
into `dedupBalance` / `dedupTransactions` for the two statement modes), and a
running-balance reconstructor (`importEntries`, split into
`importEntriesBalance` / `importEntriesTransactions`).

Modelling conventions:
* JS strings are `List Char` (abbreviated `Str`).
* JS numbers are `ℚ` (the computations at issue are exact decimal arithmetic);
  `null`/`NaN`-producing parses are `Option`-valued.
* A JS `Map` is an insertion-ordered association list: `set` on an existing
  key replaces the value in place, keeping the original position.
* `Array.prototype.sort` with a consistent comparator is modelled by
  `List.mergeSort` on the comparator's non-strict order (key sets here are
  duplicate-free, so stability is irrelevant).
-/

set_option maxRecDepth 4000
set_option synthInstance.maxHeartbeats 1000000

abbrev Str := List Char

/-- Whitespace for JS `trim` and the `\s` regex class (ASCII part plus NBSP;
other exotic Unicode space characters do not occur in the inputs studied). -/
def isJsWs (c : Char) : Bool :=
  c = ' ' ∨ c = '\t' ∨ c = '\n' ∨ c = '\r' ∨ c = '\x0b' ∨ c = '\x0c' ∨ c = ' '

/-- JS `String.prototype.trim`. -/
def jsTrim (s : Str) : Str :=
  ((s.dropWhile isJsWs).reverse.dropWhile isJsWs).reverse

/-- Numeric value of a digit string (most significant first). -/
def digitsVal (s : Str) : ℕ :=
  s.foldl (fun acc c => acc * 10 + (c.toNat - 48)) 0

/-! ## Tokenizer (`parseCsv`) -/

/-- The character-level scanner loop of `parseCsv`: state is the flag
`inQ` ("inside quoted field"), the current field buffer, the current row
buffer and the rows produced so far.  Inside quotes a doubled quote is an
escaped literal quote and any other character (including carriage returns) is
appended verbatim; outside quotes `,` ends the field, `\n` ends the row and
`\r` is skipped. -/
def parseCsvAux : Str → Bool → Str → List Str → List (List Str) → List (List Str)
  | [], _, field, row, rows =>
    if field.length > 0 ∨ row.length > 0 then rows ++ [row ++ [field]] else rows
  | '"' :: '"' :: rest, true, field, row, rows =>
    parseCsvAux rest true (field ++ ['"']) row rows
  | '"' :: rest, true, field, row, rows =>
    parseCsvAux rest false field row rows
  | c :: rest, true, field, row, rows =>
    parseCsvAux rest true (field ++ [c]) row rows
  | '"' :: rest, false, field, row, rows =>
    parseCsvAux rest true field row rows
  | ',' :: rest, false, field, row, rows =>
    parseCsvAux rest false [] (row ++ [field]) rows
  | '\n' :: rest, false, field, row, rows =>
    parseCsvAux rest false [] [] (rows ++ [row ++ [field]])
  | '\r' :: rest, false, field, row, rows =>
    parseCsvAux rest false field row rows
  | c :: rest, false, field, row, rows =>
    parseCsvAux rest false (field ++ [c]) row rows

/-- `parseCsv`: run the scanner from the empty state, then drop rows whose
cells are all blank after trimming. -/
def parseCsv (text : Str) : List (List Str) :=
  (parseCsvAux text false [] [] []).filter (fun row => row.any (fun cell => jsTrim cell ≠ []))

/-- Quoting a field per the CSV convention the tokenizer consumes: wrap in
double quotes after doubling each interior quote (this is the spec's
convention for writing a field, not code of the component). -/
def escapeQuotes : Str → Str
  | [] => []
  | c :: rest => if c = '"' then '"' :: '"' :: escapeQuotes rest else c :: escapeQuotes rest

def quoteField (s : Str) : Str :=
  '"' :: (escapeQuotes s ++ ['"'])

example : parseCsv "a,b\nc".data = [[['a'], ['b']], [['c']]] := by decide
example : parseCsv (quoteField "x,\n\"y".data) = [[['x', ',', '\n', '"', 'y']]] := by decide

/-! ## Date normalizer

`toIsoDate` calls `Date.UTC(year, month - 1, day)` and accepts the triple only
when reading the year/month/day back from the resulting instant reproduces it.
`Date.UTC` is modelled by its ECMAScript definition: two-digit years map to
1900+y, the month index is normalized into the year with floored
division/modulo, the day offset is added to the day number of the first of
that month, and the result is clipped to ±100 000 000 days from the epoch.
Day numbers convert to and from civil dates by the standard
days-from-civil/civil-from-days algorithms (proleptic Gregorian calendar),
which is exactly the arithmetic the ECMAScript date functions specify. -/

/-- Day number (days since 1970-01-01) of a civil date with `m ∈ [1,12]`. -/
def daysFromCivil (y m d : ℤ) : ℤ :=
  let y' : ℤ := if m ≤ 2 then y - 1 else y
  let era : ℤ := y'.fdiv 400
  let yoe : ℤ := y' - era * 400
  let mp : ℤ := if 2 < m then m - 3 else m + 9
  let doy : ℤ := (153 * mp + 2) / 5 + d - 1
  let doe : ℤ := yoe * 365 + yoe / 4 - yoe / 100 + doy
  era * 146097 + doe - 719468

/-- Civil date (year, month, day) of a day number. -/
def civilFromDays (z : ℤ) : ℤ × ℤ × ℤ :=
  let z' : ℤ := z + 719468
  let era : ℤ := z'.fdiv 146097
  let doe : ℤ := z' - era * 146097
  let yoe : ℤ := (doe - doe / 1460 + doe / 36524 - doe / 146096) / 365
  let y : ℤ := yoe + era * 400
  let doy : ℤ := doe - (365 * yoe + yoe / 4 - yoe / 100)
  let mp : ℤ := (5 * doy + 2) / 153
  let d : ℤ := doy - (153 * mp + 2) / 5 + 1
  let m : ℤ := if mp < 10 then mp + 3 else mp - 9
  (if m ≤ 2 then y + 1 else y, m, d)

/-- `Date.UTC(year, month - 1, day)` as a day number (the engine only builds
midnight instants): two-digit-year remapping, month normalization by floored
division, then day-offset arithmetic; `none` is the NaN result of time
clipping. `month` here is the 1-based month the engine computed (the source
passes `month - 1` as the JS month index). -/
def utcDayNumber (year month day : ℤ) : Option ℤ :=
  let y2 : ℤ := if 0 ≤ year ∧ year ≤ 99 then 1900 + year else year
  let mIdx : ℤ := month - 1
  let ym : ℤ := y2 + mIdx.fdiv 12
  let mn : ℤ := mIdx.emod 12
  let t : ℤ := daysFromCivil ym (mn + 1) 1 + (day - 1)
  if t < -100000000 ∨ 100000000 < t then none else some t

/-- Digits of `n` left-padded with zeros to width `w`. -/
def padNum (w : ℕ) (n : ℕ) : Str :=
  let ds := Nat.toDigits 10 n
  List.replicate (w - ds.length) '0' ++ ds

/-- The year field of `Date.prototype.toISOString` (four digits, or the
six-digit expanded form outside 0–9999). -/
def isoYear (y : ℤ) : Str :=
  if 0 ≤ y ∧ y ≤ 9999 then padNum 4 y.toNat
  else if y < 0 then '-' :: padNum 6 (-y).toNat
  else '+' :: padNum 6 y.toNat

/-- `toISOString().split('T')[0]` of a midnight UTC instant at civil date
`(y, m, d)`. -/
def isoString (y m d : ℤ) : Str :=
  isoYear y ++ '-' :: (padNum 2 m.toNat ++ '-' :: padNum 2 d.toNat)

/-- `toIsoDate`: build the UTC instant, read its year/month/day back, and
accept only if they equal the inputs (the guard against silent
date-arithmetic rollover); on acceptance return the ISO date string. -/
def toIsoDate (year month day : ℤ) : Option Str :=
  match utcDayNumber year month day with
  | none => none
  | some t =>
    if (civilFromDays t).1 = year ∧ (civilFromDays t).2.1 = month ∧ (civilFromDays t).2.2 = day
    then some (isoString (civilFromDays t).1 (civilFromDays t).2.1 (civilFromDays t).2.2)
    else none

/-- JS `Number(s)` on the string shapes the date paths produce: an optional
sign followed by decimal digits (the regex-matched paths only ever pass pure
digit strings).  `Number('')` is `0`; forms this engine cannot make an
accepted date from anyway (fractions, exponents, hex, `Infinity`) are
collapsed to `none` (NaN). -/
def jsNumber (s : Str) : Option ℤ :=
  match s with
  | [] => some 0
  | '-' :: rest => if rest ≠ [] ∧ rest.all Char.isDigit then some (-(digitsVal rest : ℤ)) else none
  | '+' :: rest => if rest ≠ [] ∧ rest.all Char.isDigit then some (digitsVal rest : ℤ) else none
  | _ => if s.all Char.isDigit then some (digitsVal s : ℤ) else none

/-- `toIsoDate` lifted to possibly-NaN arguments: `Date.UTC` with a NaN
argument yields an invalid date, whose round-trip check fails. -/
def toIsoDateN : Option ℤ → Option ℤ → Option ℤ → Option Str
  | some y, some m, some d => toIsoDate y m d
  | _, _, _ => none

inductive DateFormat where
  | auto | mdy | dmy | ymd
deriving DecidableEq

/-- Comparison `Number(a) > k` with NaN compared false. -/
def numGtK (o : Option ℤ) (k : ℤ) : Bool :=
  match o with
  | none => false
  | some v => k < v

/-- Comparison `Number(a) <= k` with NaN compared false. -/
def numLeK (o : Option ℤ) (k : ℤ) : Bool :=
  match o with
  | none => false
  | some v => v ≤ k

/-- `parseDateFromParts`: three trimmed nonempty parts, then the
format-directed assignment of year/month/day; under `auto` a 4-digit first
part is year-first, otherwise a first value exceeding 12 (with the second not
exceeding 12) is taken as the day. -/
def parseDateFromParts (parts : List Str) (format : DateFormat) : Option Str :=
  match parts with
  | [p1, p2, p3] =>
    let part1 := jsTrim p1
    let part2 := jsTrim p2
    let part3 := jsTrim p3
    if part1 = [] ∨ part2 = [] ∨ part3 = [] then none
    else if format = .ymd ∧ part1.length = 4 then
      toIsoDateN (jsNumber part1) (jsNumber part2) (jsNumber part3)
    else if (format = .mdy ∨ format = .dmy) ∧ part3.length = 4 then
      let month := if format = .mdy then jsNumber part1 else jsNumber part2
      let day := if format = .mdy then jsNumber part2 else jsNumber part1
      toIsoDateN (jsNumber part3) month day
    else if format = .auto then
      if part1.length = 4 then
        toIsoDateN (jsNumber part1) (jsNumber part2) (jsNumber part3)
      else if part3.length = 4 then
        let first := jsNumber part1
        let second := jsNumber part2
        if numGtK first 12 ∧ numLeK second 12 then toIsoDateN (jsNumber part3) second first
        else toIsoDateN (jsNumber part3) first second
      else none
    else none
  | _ => none

/-- Take 1 or 2 leading digits such that the whole group is maximal
(equivalent to the regex `\d{1,2}` followed by a non-digit or end). -/
def takeDigits12 (s : Str) : Option (Str × Str) :=
  let ds := s.takeWhile Char.isDigit
  if ds.length = 1 ∨ ds.length = 2 then some (ds, s.dropWhile Char.isDigit) else none

/-- Matcher for the ISO-like regex: four digits, a slash-or-dash separator,
one or two digits, a separator, one or two digits, end of string; returns the
three captured digit groups. -/
def matchIso (s : Str) : Option (Str × Str × Str) :=
  let g1 := s.takeWhile Char.isDigit
  if g1.length = 4 then
    match s.dropWhile Char.isDigit with
    | sep1 :: rest1 =>
      if sep1 = '/' ∨ sep1 = '-' then
        match takeDigits12 rest1 with
        | some (g2, sep2 :: rest2) =>
          if sep2 = '/' ∨ sep2 = '-' then
            match takeDigits12 rest2 with
            | some (g3, []) => some (g1, g2, g3)
            | _ => none
          else none
        | _ => none
      else none
    | [] => none
  else none

/-- Matcher for the numeric-date regex: one or two digits, a slash-or-dash
separator, one or two digits, a separator, exactly four digits, end of
string; returns the three captured digit groups. -/
def matchNumeric (s : Str) : Option (Str × Str × Str) :=
  match takeDigits12 s with
  | some (g1, sep1 :: rest1) =>
    if sep1 = '/' ∨ sep1 = '-' then
      match takeDigits12 rest1 with
      | some (g2, sep2 :: rest2) =>
        if sep2 = '/' ∨ sep2 = '-' then
          let g3 := rest2.takeWhile Char.isDigit
          if g3.length = 4 ∧ rest2.dropWhile Char.isDigit = [] then some (g1, g2, g3)
          else none
        else none
      | _ => none
    else none
  | _ => none

/-- `String.prototype.split('.')`. -/
def splitOnDot (s : Str) : List Str :=
  match s with
  | [] => [[]]
  | c :: rest =>
    let tail := splitOnDot rest
    if c = '.' then [] :: tail
    else ((c :: tail.headD []) :: tail.tail)

/-- `normalizeDate`: trim, then try the ISO-like match, the numeric match,
the dot-separated three-part form, and finally the generic `new Date(text)`
parse.  That generic parse is implementation-defined in ECMAScript, so it is
abstracted as the parameter `fb`, returning the local-time year/month/day
triple the engine would read from the parsed `Date` (or `none` for an invalid
date). -/
def normalizeDate (raw : Str) (format : DateFormat) (fb : Str → Option (ℤ × ℤ × ℤ)) :
    Option Str :=
  let trimmed := jsTrim raw
  if trimmed = [] then none
  else
    match matchIso trimmed with
    | some (g1, g2, g3) => toIsoDateN (jsNumber g1) (jsNumber g2) (jsNumber g3)
    | none =>
      match matchNumeric trimmed with
      | some (g1, g2, g3) => parseDateFromParts [g1, g2, g3] format
      | none =>
        let alt := splitOnDot trimmed
        let viaDots := if alt.length = 3 then parseDateFromParts alt format else none
        match viaDots with
        | some normalized => some normalized
        | none =>
          match fb trimmed with
          | some (y, m, d) => toIsoDate y m d
          | none => none

example : toIsoDate 2024 2 29 = some "2024-02-29".data := by decide
example : toIsoDate 2023 2 29 = none := by decide
example : toIsoDate 2024 2 30 = none := by decide
example : normalizeDate "13/05/2024".data .auto (fun _ => none) = some "2024-05-13".data := by
  decide

/-! ## Amount normalizer -/

/-- JS `Number.parseFloat` on the cleaned strings `parseAmount` builds: skip
leading whitespace, take an optional sign, then the longest prefix of the form
digits, optional `.` and further digits, and an optional well-formed exponent
part; anything after that longest prefix is ignored.  The result is exact
rational arithmetic (`Infinity` and double rounding are outside the scope of
the statements proved, which concern exact decimal inputs). -/
def jsParseFloat (s : Str) : Option ℚ :=
  let s1 := s.dropWhile isJsWs
  let sign : ℚ := if s1.headD ' ' = '-' then -1 else 1
  let s2 := if s1.headD ' ' = '-' ∨ s1.headD ' ' = '+' then s1.tail else s1
  let ip := s2.takeWhile Char.isDigit
  let r1 := s2.dropWhile Char.isDigit
  let fp := if r1.headD ' ' = '.' then r1.tail.takeWhile Char.isDigit else []
  let r2 := if r1.headD ' ' = '.' then r1.tail.dropWhile Char.isDigit else r1
  if ip = [] ∧ fp = [] then none
  else
    let mantissa : ℚ := (digitsVal ip : ℚ) + (digitsVal fp : ℚ) / (10 : ℚ) ^ fp.length
    let expPart : ℤ :=
      if r2.headD ' ' = 'e' ∨ r2.headD ' ' = 'E' then
        let r3 := r2.tail
        let esign : ℤ := if r3.headD ' ' = '-' then -1 else 1
        let r4 := if r3.headD ' ' = '-' ∨ r3.headD ' ' = '+' then r3.tail else r3
        let ed := r4.takeWhile Char.isDigit
        if ed = [] then 0 else esign * (digitsVal ed : ℤ)
      else 0
    some (sign * mantissa * (10 : ℚ) ^ expPart)

/-- The cleaning stages of `parseAmount` before the `parseFloat` call: trim;
strip a fully enclosing parenthesis pair (recording a negative); strip `$`,
`,` and whitespace; strip one leading `-` (recording a negative).  Returns the
negative flag and the string handed to `parseFloat`. -/
def amountCore (raw : Str) : Bool × Str :=
  let cleaned := jsTrim raw
  let neg1 := cleaned.headD ' ' = '(' ∧ cleaned.getLast? = some ')'
  let c1 := if neg1 then (cleaned.drop 1).dropLast else cleaned
  let c2 := c1.filter (fun c => ¬ (c = '$' ∨ c = ',' ∨ isJsWs c))
  if c2.headD ' ' = '-' then (true, c2.tail) else (decide neg1, c2)

/-- `parseAmount`: empty after trimming means absent; otherwise parse the
cleaned text and apply any recorded negative marker to the absolute value of
the parsed number. -/
def parseAmount (raw : Str) : Option ℚ :=
  if jsTrim raw = [] then none
  else
    match jsParseFloat (amountCore raw).2 with
    | none => none
    | some value => some (if (amountCore raw).1 then -|value| else value)

example : parseAmount "(1,234.50)".data = some (-1234.5 : ℚ) := by
  with_unfolding_all decide
example : parseAmount "-$45.00".data = some (-45 : ℚ) := by with_unfolding_all decide
example : parseAmount "  ".data = none := by decide
example : parseAmount "45.00USD".data = some (45 : ℚ) := by with_unfolding_all decide

/-! ## Normalized rows, deduplication, import entries -/

inductive StatementType where
  | balance | transactions
deriving DecidableEq

structure NormalizedRow where
  rowIndex : ℤ
  rawDate : Str
  rawValue : Str
  dateIso : Option Str
  amount : Option ℚ
deriving DecidableEq

/-- JS truthiness of a `string | null` value: `null` and the empty string are
falsy. -/
def strTruthy : Option Str → Bool
  | none => false
  | some s => s ≠ []

/-- The `validRows` filter: a row is kept iff its `dateIso` is truthy and its
`amount` is not `null`. -/
def validRows (rows : List NormalizedRow) : List NormalizedRow :=
  rows.filter (fun r => strTruthy r.dateIso ∧ r.amount ≠ none)

/-- `Map.prototype.get`. -/
def mapGet {β : Type} (m : List (Str × β)) (k : Str) : Option β :=
  match m with
  | [] => none
  | p :: rest => if p.1 = k then some p.2 else mapGet rest k

/-- `Map.prototype.set`: replace the value in place for an existing key
(keeping the original insertion position), else append. -/
def mapSet {β : Type} (m : List (Str × β)) (k : Str) (v : β) : List (Str × β) :=
  match m with
  | [] => [(k, v)]
  | p :: rest => if p.1 = k then (k, v) :: rest else p :: mapSet rest k v

/-- Lexicographic non-strict string order, the ascending order
`localeCompare` induces on ISO date strings. -/
def strLe : Str → Str → Bool
  | [], _ => true
  | _ :: _, [] => false
  | a :: as, b :: bs => if a < b then true else if b < a then false else strLe as bs

/-- Lexicographic strict string order. -/
def strLt : Str → Str → Bool
  | _, [] => false
  | [], _ :: _ => true
  | a :: as, b :: bs => if a < b then true else if b < a then false else strLt as bs

/-- The balance-mode grouping loop of `dedupedRows`: rows with a falsy
`dateIso` are skipped; a repeated date bumps `duplicateCount`; the stored row
for a date is overwritten by each later row with that date. -/
def dedupBalanceAux (rows : List NormalizedRow) (m : List (Str × NormalizedRow)) (cnt : ℕ) :
    List (Str × NormalizedRow) × ℕ :=
  match rows with
  | [] => (m, cnt)
  | r :: rest =>
    match r.dateIso with
    | none => dedupBalanceAux rest m cnt
    | some d =>
      if d = [] then dedupBalanceAux rest m cnt
      else dedupBalanceAux rest (mapSet m d r) (if (mapGet m d).isSome then cnt + 1 else cnt)

/-- Balance-mode `dedupedRows`: the grouped rows in ascending date order
(`sort` with the `localeCompare` comparator) and the duplicate count. -/
def dedupBalance (rows : List NormalizedRow) : List NormalizedRow × ℕ :=
  let g := dedupBalanceAux rows [] 0
  ((g.1.map (fun p => p.2)).mergeSort
      (fun a b => strLe (a.dateIso.getD []) (b.dateIso.getD [])),
    g.2)

structure TxEntry where
  dateIso : Str
  amount : ℚ
deriving DecidableEq

/-- The transactions-mode grouping loop of `dedupedRows`: rows with a falsy
`dateIso` or a `null` amount are skipped; amounts for the same date are
summed onto the stored entry; a repeated date bumps `duplicateCount`. -/
def dedupTransactionsAux (rows : List NormalizedRow) (m : List (Str × TxEntry)) (cnt : ℕ) :
    List (Str × TxEntry) × ℕ :=
  match rows with
  | [] => (m, cnt)
  | r :: rest =>
    match r.dateIso, r.amount with
    | some d, some a =>
      if d = [] then dedupTransactionsAux rest m cnt
      else
        dedupTransactionsAux rest
          (mapSet m d ⟨d, (match mapGet m d with | some e => e.amount | none => 0) + a⟩)
          (if (mapGet m d).isSome then cnt + 1 else cnt)
    | _, _ => dedupTransactionsAux rest m cnt

/-- Transactions-mode `dedupedRows`. -/
def dedupTransactions (rows : List NormalizedRow) : List TxEntry × ℕ :=
  let g := dedupTransactionsAux rows [] 0
  ((g.1.map (fun p => p.2)).mergeSort (fun a b => strLe a.dateIso b.dateIso), g.2)

/-- The final unit handed to the balance store.  The `date` field holds the
ISO date string passed to `new Date(...)` (for the strings the engine builds,
that constructor is injective, so the string is kept as the date's
identity). -/
structure ImportEntry where
  accountId : Str
  amount : ℚ
  date : Str
deriving DecidableEq

/-- The running-balance scan of `importEntries`: the accumulator starts at
the starting balance, each entry adds its amount, and the emitted entry
carries the updated accumulator. -/
def runBalances (acct : Str) (s : ℚ) : List TxEntry → List ImportEntry
  | [] => []
  | e :: rest => ⟨acct, s + e.amount, e.dateIso⟩ :: runBalances acct (s + e.amount) rest

/-- `startingBalance`: in transactions mode the parsed starting-balance text,
otherwise `null`. -/
def startingBalance (statementType : StatementType) (startingBalanceInput : Str) : Option ℚ :=
  if statementType = .transactions then parseAmount startingBalanceInput else none

/-- `importEntries`, balance-mode branch: one entry per deduped row, taking
the deduped amount directly (`?? 0` / `?? ''` for the impossible nulls). -/
def importEntriesBalance (selectedAccountId : Str) (rows : List NormalizedRow) :
    List ImportEntry :=
  if selectedAccountId = [] then []
  else rows.map (fun r => ⟨selectedAccountId, r.amount.getD 0, r.dateIso.getD []⟩)

/-- `importEntries`, transactions-mode branch: no entries without an account
or a parsed starting balance, else the running-balance scan over the deduped
entries. -/
def importEntriesTransactions (selectedAccountId : Str) (sb : Option ℚ)
    (rows : List TxEntry) : List ImportEntry :=
  if selectedAccountId = [] then []
  else
    match sb with
    | none => []
    | some s => runBalances selectedAccountId s rows

example :
    dedupBalance
      [⟨2, "a".data, "b".data, some "2024-01-05".data, some 100⟩,
       ⟨3, "a".data, "b".data, some "2024-01-05".data, some 150⟩] =
    ([⟨3, "a".data, "b".data, some "2024-01-05".data, some 150⟩], 1) := by
  with_unfolding_all decide

/-! ## Claims -/

/-- C8: in transactions mode, if the starting-balance text does not parse to
a number, the engine produces zero ImportEntries, no matter how many deduped
rows there are. -/
theorem importEntries_empty_of_absent_startingBalance
    (acct input : Str) (rows : List TxEntry) (h : parseAmount input = none) :
    importEntriesTransactions acct (startingBalance .transactions input) rows = [] := by
  unfold importEntriesTransactions startingBalance
  rw [if_pos rfl, h]
  split <;> rfl

theorem importEntries_empty_of_absent_startingBalance_witness :
    parseAmount "abc".data = none ∧
      importEntriesTransactions "acct".data (startingBalance .transactions "abc".data)
        [⟨"2024-01-01".data, 5⟩, ⟨"2024-01-02".data, 7⟩] = [] :=
  ⟨by decide,
    importEntries_empty_of_absent_startingBalance "acct".data "abc".data
      [⟨"2024-01-01".data, 5⟩, ⟨"2024-01-02".data, 7⟩] (by decide)⟩

/-- C5: the amount normalizer maps `"(1,234.50)"` to −1234.50, `"-$45.00"`
to −45.00 and a whitespace-only string to absent; and whenever a negative
marker (enclosing parentheses, or a leading minus after stripping) was
recorded, the result is minus the absolute value of whatever number the
cleaned text parses to, independent of that numeral's own sign. -/
theorem parseAmount_paren_example :
    parseAmount "(1,234.50)".data = some (-1234.5 : ℚ) := by
  with_unfolding_all decide

theorem parseAmount_minus_dollar_example :
    parseAmount "-$45.00".data = some (-45 : ℚ) := by
  with_unfolding_all decide

theorem parseAmount_negative_markers :
    parseAmount "(1,234.50)".data = some (-1234.5 : ℚ) ∧
    parseAmount "-$45.00".data = some (-45 : ℚ) ∧
    parseAmount "  ".data = none ∧
    ∀ raw : Str, (amountCore raw).1 = true →
      parseAmount raw = (jsParseFloat (amountCore raw).2).map (fun v => -|v|) := by
  refine ⟨parseAmount_paren_example, parseAmount_minus_dollar_example, by decide, ?_⟩
  intro raw h
  by_cases he : jsTrim raw = []
  · exfalso
    have hneg : (amountCore raw).1 = false := by
      unfold amountCore
      rw [he]
      decide
    rw [h] at hneg
    exact Bool.noConfusion hneg
  · unfold parseAmount
    rw [if_neg he]
    simp only [h]
    cases jsParseFloat (amountCore raw).2 <;> simp

theorem parseAmount_negative_markers_witness :
    (amountCore "(5)".data).1 = true ∧
      parseAmount "(5)".data =
        (jsParseFloat (amountCore "(5)".data).2).map (fun v => -|v|) :=
  ⟨by decide, parseAmount_negative_markers.2.2.2 "(5)".data (by decide)⟩

/-- C4: under the `auto` policy, an ambiguous numeric triple whose first
trimmed part is not 4 characters and whose third is 4 characters is read as
day-month-year exactly when the first value exceeds 12 and the second does
not, else as month-day-year; `"13/05/2024"` and `"05/13/2024"` both
normalize to 2024-05-13, the first through the day-month-year branch
(13 > 12) and the second through the month-day-year default (5 ≤ 12). -/
theorem parseDate_auto_disambiguation :
    (∀ p1 p2 p3 : Str,
      jsTrim p1 ≠ [] → jsTrim p2 ≠ [] → jsTrim p3 ≠ [] →
      (jsTrim p1).length ≠ 4 → (jsTrim p3).length = 4 →
      parseDateFromParts [p1, p2, p3] .auto =
        (if numGtK (jsNumber (jsTrim p1)) 12 ∧ numLeK (jsNumber (jsTrim p2)) 12 then
          toIsoDateN (jsNumber (jsTrim p3)) (jsNumber (jsTrim p2)) (jsNumber (jsTrim p1))
        else
          toIsoDateN (jsNumber (jsTrim p3)) (jsNumber (jsTrim p1)) (jsNumber (jsTrim p2)))) ∧
    normalizeDate "13/05/2024".data .auto (fun _ => none) = some "2024-05-13".data ∧
    normalizeDate "05/13/2024".data .auto (fun _ => none) = some "2024-05-13".data ∧
    numGtK (jsNumber "13".data) 12 = true ∧
    numGtK (jsNumber "05".data) 12 = false := by
  refine ⟨?_, by decide, by decide, by decide, by decide⟩
  intro p1 p2 p3 h1 h2 h3 hl1 hl3
  simp only [parseDateFromParts]
  rw [if_neg (by simp [h1, h2, h3])]
  rw [if_neg (by simp)]
  rw [if_neg (by simp)]
  simp [hl1, hl3]

theorem parseDate_auto_disambiguation_witness :
    jsTrim "13".data ≠ [] ∧ jsTrim "05".data ≠ [] ∧ jsTrim "2024".data ≠ [] ∧
      (jsTrim "13".data).length ≠ 4 ∧ (jsTrim "2024".data).length = 4 ∧
      parseDateFromParts ["13".data, "05".data, "2024".data] .auto =
        (if numGtK (jsNumber (jsTrim "13".data)) 12 ∧
            numLeK (jsNumber (jsTrim "05".data)) 12 then
          toIsoDateN (jsNumber (jsTrim "2024".data)) (jsNumber (jsTrim "05".data))
            (jsNumber (jsTrim "13".data))
        else
          toIsoDateN (jsNumber (jsTrim "2024".data)) (jsNumber (jsTrim "13".data))
            (jsNumber (jsTrim "05".data))) :=
  ⟨by decide, by decide, by decide, by decide, by decide,
    parseDate_auto_disambiguation.1 "13".data "05".data "2024".data
      (by decide) (by decide) (by decide) (by decide) (by decide)⟩

/-- C3: a parsed year/month/day triple is accepted only if reading the
calendar date back from the constructed instant reproduces the identical
year, month and day — so `"02/30/2024"` is rejected under every policy,
`"2024-02-29"` is accepted, and `"2023-02-29"` is rejected, whatever the
policy and whatever the generic-parse fallback would say. -/
theorem toIsoDate_no_silent_rollover :
    (∀ y m d : ℤ, (toIsoDate y m d).isSome = true →
      ∃ t, utcDayNumber y m d = some t ∧ civilFromDays t = (y, m, d)) ∧
    (∀ (format : DateFormat) (fb : Str → Option (ℤ × ℤ × ℤ)),
      normalizeDate "02/30/2024".data format fb = none) ∧
    (∀ (format : DateFormat) (fb : Str → Option (ℤ × ℤ × ℤ)),
      normalizeDate "2024-02-29".data format fb = some "2024-02-29".data) ∧
    (∀ (format : DateFormat) (fb : Str → Option (ℤ × ℤ × ℤ)),
      normalizeDate "2023-02-29".data format fb = none) := by
  refine ⟨?_, ?_, ?_, ?_⟩
  · intro y m d h
    unfold toIsoDate at h
    split at h
    · exact absurd h (by simp)
    · rename_i t heq
      refine ⟨t, heq, ?_⟩
      split at h
      · rename_i hc
        obtain ⟨ha, hb, hd⟩ := hc
        calc civilFromDays t = ((civilFromDays t).1, (civilFromDays t).2.1,
              (civilFromDays t).2.2) := rfl
          _ = (y, m, d) := by rw [ha, hb, hd]
      · exact absurd h (by simp)
  · intro format fb
    have hred : normalizeDate "02/30/2024".data format fb =
        parseDateFromParts ["02".data, "30".data, "2024".data] format := rfl
    rw [hred]
    cases format <;> decide
  · intro format fb
    rfl
  · intro format fb
    rfl

theorem toIsoDate_no_silent_rollover_witness :
    (toIsoDate 2024 2 29).isSome = true ∧
      ∃ t, utcDayNumber 2024 2 29 = some t ∧ civilFromDays t = (2024, 2, 29) :=
  ⟨by decide, toIsoDate_no_silent_rollover.1 2024 2 29 (by decide)⟩

/-- The emitted import entry at index `k` of the running-balance scan is the
accumulator after the first `k + 1` deduped amounts, dated by the `k`-th
entry. -/
theorem runBalances_getElem (l : List TxEntry) :
    ∀ (acct : Str) (s : ℚ) (k : ℕ),
      (runBalances acct s l)[k]? =
        (l[k]?).map
          (fun e => ⟨acct, s + ((l.take (k + 1)).map TxEntry.amount).sum, e.dateIso⟩) := by
  induction l with
  | nil => intro acct s k; simp [runBalances]
  | cons e0 rest ih =>
    intro acct s k
    cases k with
    | zero => simp [runBalances]
    | succ k => simp [runBalances, ih, add_assoc]

/-- C1: in transactions mode with a present starting balance `s`, the `k`-th
ImportEntry carries the updated accumulator — `s` plus the sum of the first
`k + 1` deduped daily amounts — and the `k`-th deduped date; in particular
starting balance 1000 with day-1 rows +50 and −20 (net +30) and a day-2 row
+100 yields entries 1030 on day 1 and 1130 on day 2. -/
theorem importEntries_transactions_example :
    importEntriesTransactions "a".data (parseAmount "1000".data)
        (dedupTransactions
          [⟨2, [], [], some "2024-01-01".data, some 50⟩,
           ⟨3, [], [], some "2024-01-01".data, some (-20)⟩,
           ⟨4, [], [], some "2024-01-02".data, some 100⟩]).1 =
      [⟨"a".data, 1030, "2024-01-01".data⟩, ⟨"a".data, 1130, "2024-01-02".data⟩] := by
  with_unfolding_all decide

theorem importEntries_running_balance :
    (∀ (acct : Str) (s : ℚ) (entries : List TxEntry) (k : ℕ) (e : TxEntry),
      acct ≠ [] → entries[k]? = some e →
      (importEntriesTransactions acct (some s) entries)[k]? =
        some ⟨acct, s + ((entries.take (k + 1)).map TxEntry.amount).sum, e.dateIso⟩) ∧
    importEntriesTransactions "a".data (parseAmount "1000".data)
        (dedupTransactions
          [⟨2, [], [], some "2024-01-01".data, some 50⟩,
           ⟨3, [], [], some "2024-01-01".data, some (-20)⟩,
           ⟨4, [], [], some "2024-01-02".data, some 100⟩]).1 =
      [⟨"a".data, 1030, "2024-01-01".data⟩, ⟨"a".data, 1130, "2024-01-02".data⟩] := by
  constructor
  · intro acct s entries k e hacct hk
    unfold importEntriesTransactions
    rw [if_neg hacct]
    show (runBalances acct s entries)[k]? = _
    rw [runBalances_getElem, hk]
    rfl
  · exact importEntries_transactions_example

theorem importEntries_running_balance_witness :
    ("a".data : Str) ≠ [] ∧
      ([⟨"2024-01-01".data, 2⟩] : List TxEntry)[0]? = some ⟨"2024-01-01".data, 2⟩ ∧
      (importEntriesTransactions "a".data (some 5) [⟨"2024-01-01".data, 2⟩])[0]? =
        some ⟨"a".data,
          5 + ((([⟨"2024-01-01".data, 2⟩] : List TxEntry).take 1).map TxEntry.amount).sum,
          "2024-01-01".data⟩ :=
  ⟨by decide, by with_unfolding_all decide,
    importEntries_running_balance.1 "a".data 5 [⟨"2024-01-01".data, 2⟩] 0
      ⟨"2024-01-01".data, 2⟩ (by decide) (by with_unfolding_all decide)⟩

/-! ## Tokenizer claims -/

/-- A character that fails the predicate survives `dropWhile`. -/
theorem mem_dropWhile_of_mem {p : Char → Bool} {c : Char} (hp : p c = false) :
    ∀ {l : Str}, c ∈ l → c ∈ l.dropWhile p := by
  intro l hl
  induction l with
  | nil => cases hl
  | cons a l ih =>
    by_cases ha : p a
    · rw [List.dropWhile_cons_of_pos ha]
      rcases List.mem_cons.mp hl with h | h
      · rw [h] at hp; rw [hp] at ha; cases ha
      · exact ih h
    · rw [List.dropWhile_cons_of_neg ha]
      exact hl

/-- A non-whitespace character of a string survives `trim`. -/
theorem mem_jsTrim {c : Char} (hw : isJsWs c = false) {s : Str} (hs : c ∈ s) :
    c ∈ jsTrim s := by
  unfold jsTrim
  rw [List.mem_reverse]
  apply mem_dropWhile_of_mem hw
  rw [List.mem_reverse]
  exact mem_dropWhile_of_mem hw hs

/-- Scanning the quote-escaped form of `s` followed by the closing quote,
from inside a quoted region, appends exactly `s` to the current field and
leaves the quoted region. -/
theorem parseCsvAux_escaped (s : Str) :
    ∀ (field : Str) (row : List Str) (rows : List (List Str)),
      parseCsvAux (escapeQuotes s ++ ['"']) true field row rows =
        parseCsvAux [] false (field ++ s) row rows := by
  induction s with
  | nil => intro field row rows; simp [escapeQuotes, parseCsvAux]
  | cons c s ih =>
    intro field row rows
    by_cases hc : c = '"'
    · subst hc
      rw [show escapeQuotes ('"' :: s) = '"' :: '"' :: escapeQuotes s from by
        simp [escapeQuotes]]
      rw [List.cons_append, List.cons_append]
      rw [show parseCsvAux ('"' :: '"' :: (escapeQuotes s ++ ['"'])) true field row rows =
          parseCsvAux (escapeQuotes s ++ ['"']) true (field ++ ['"']) row rows from by
        simp [parseCsvAux]]
      rw [ih]
      simp
    · simp only [escapeQuotes, if_neg hc, List.cons_append]
      rw [show parseCsvAux (c :: (escapeQuotes s ++ ['"'])) true field row rows =
          parseCsvAux (escapeQuotes s ++ ['"']) true (field ++ [c]) row rows from by
        simp [parseCsvAux, hc]]
      rw [ih]
      simp

/-- C6: a field containing a comma, a newline and a quote, quoted per
convention (wrapped in double quotes, interior quotes doubled), tokenizes to
exactly one row with exactly one field equal to the original unescaped
string. -/
theorem parseCsv_quoteField_roundtrip (s : Str)
    (hc : ',' ∈ s) (hn : '\n' ∈ s) (hq : '"' ∈ s) :
    parseCsv (quoteField s) = [[s]] := by
  have hs : s ≠ [] := by intro h; rw [h] at hc; cases hc
  unfold parseCsv quoteField
  rw [show parseCsvAux ('"' :: (escapeQuotes s ++ ['"'])) false [] [] [] =
      parseCsvAux (escapeQuotes s ++ ['"']) true [] [] [] from by simp [parseCsvAux]]
  rw [parseCsvAux_escaped]
  show List.filter _ (if s.length > 0 ∨ ([] : List Str).length > 0 then
    [] ++ [[] ++ [s]] else []) = [[s]]
  rw [if_pos (Or.inl (List.length_pos.mpr hs))]
  have htrim : jsTrim s ≠ [] := by
    intro h
    have : ',' ∈ jsTrim s := mem_jsTrim (by decide) hc
    rw [h] at this
    cases this
  simp [List.filter, htrim]

theorem parseCsv_quoteField_roundtrip_witness :
    (',' ∈ "a,\nb\"c".data ∧ '\n' ∈ "a,\nb\"c".data ∧ '"' ∈ "a,\nb\"c".data) ∧
      parseCsv (quoteField "a,\nb\"c".data) = [["a,\nb\"c".data]] :=
  ⟨⟨by decide, by decide, by decide⟩,
    parseCsv_quoteField_roundtrip "a,\nb\"c".data (by decide) (by decide) (by decide)⟩

/-- C7 as stated is false on the code: inside a quoted region every character
other than a quote — carriage returns included — is appended verbatim to the
field, so the input `"a<CR>b"` produces a field containing a carriage
return. -/
theorem parseCsv_cr_counterexample :
    ¬ (∀ text : Str, ∀ row ∈ parseCsv text, ∀ f ∈ row, '\r' ∉ f) := by
  intro h
  exact h "\"a\rb\"".data [['a', '\r', 'b']] (by decide) ['a', '\r', 'b'] (by decide)
    (by decide)

/-- The scanner invariant behind the amended C7: while no quote character
remains in the input (so the scanner never enters a quoted region), no
carriage return is ever added to a field. -/
theorem parseCsvAux_no_cr : ∀ (cs : Str) (field : Str) (row : List Str)
    (rows : List (List Str)),
    '"' ∉ cs → '\r' ∉ field → (∀ f ∈ row, '\r' ∉ f) →
    (∀ r ∈ rows, ∀ f ∈ r, '\r' ∉ f) →
    ∀ r ∈ parseCsvAux cs false field row rows, ∀ f ∈ r, '\r' ∉ f := by
  intro cs
  induction cs with
  | nil =>
    intro field row rows _ hf hrow hrows r hr f hfr
    rw [parseCsvAux] at hr
    split at hr
    · rcases List.mem_append.mp hr with h | h
      · exact hrows r h f hfr
      · rcases List.mem_singleton.mp h with rfl
        rcases List.mem_append.mp hfr with h2 | h2
        · exact hrow f h2
        · rcases List.mem_singleton.mp h2 with rfl
          exact hf
    · exact hrows r hr f hfr
  | cons c cs ih =>
    intro field row rows hq hf hrow hrows r hr f hfr
    have hcq : c ≠ '"' := fun h => hq (h ▸ List.mem_cons_self c cs)
    have hq' : '"' ∉ cs := fun h => hq (List.mem_cons_of_mem c h)
    by_cases hc1 : c = ','
    · subst hc1
      rw [show parseCsvAux (',' :: cs) false field row rows =
          parseCsvAux cs false [] (row ++ [field]) rows from by simp [parseCsvAux]] at hr
      refine ih [] (row ++ [field]) rows hq' (by simp) ?_ hrows r hr f hfr
      intro g hg
      rcases List.mem_append.mp hg with h | h
      · exact hrow g h
      · rcases List.mem_singleton.mp h with rfl
        exact hf
    · by_cases hc2 : c = '\n'
      · subst hc2
        rw [show parseCsvAux ('\n' :: cs) false field row rows =
            parseCsvAux cs false [] [] (rows ++ [row ++ [field]]) from by
          simp [parseCsvAux]] at hr
        refine ih [] [] (rows ++ [row ++ [field]]) hq' (by simp) (by simp) ?_ r hr f hfr
        intro r' hr' g hg
        rcases List.mem_append.mp hr' with h | h
        · exact hrows r' h g hg
        · rcases List.mem_singleton.mp h with rfl
          rcases List.mem_append.mp hg with h2 | h2
          · exact hrow g h2
          · rcases List.mem_singleton.mp h2 with rfl
            exact hf
      · by_cases hc3 : c = '\r'
        · subst hc3
          rw [show parseCsvAux ('\r' :: cs) false field row rows =
              parseCsvAux cs false field row rows from by simp [parseCsvAux]] at hr
          exact ih field row rows hq' hf hrow hrows r hr f hfr
        · rw [show parseCsvAux (c :: cs) false field row rows =
              parseCsvAux cs false (field ++ [c]) row rows from by
            simp [parseCsvAux, hcq, hc1, hc2, hc3]] at hr
          refine ih (field ++ [c]) row rows hq' ?_ hrow hrows r hr f hfr
          intro h
          rcases List.mem_append.mp h with h2 | h2
          · exact hf h2
          · rcases List.mem_singleton.mp h2 with h3
            exact hc3 (List.mem_singleton.mp h2).symm

/-- C7, amended: carriage returns are dropped only *outside* quoted regions;
for any input containing no quote character (so no quoted region exists), no
field of any produced row contains a carriage return.  Inside quoted regions
a carriage return is preserved verbatim (see the counterexample). -/
theorem parseCsv_cr_outside_quotes (text : Str) (hq : '"' ∉ text) :
    ∀ row ∈ parseCsv text, ∀ f ∈ row, '\r' ∉ f := by
  intro row hrow f hf
  unfold parseCsv at hrow
  have hmem := (List.mem_filter.mp hrow).1
  exact parseCsvAux_no_cr text [] [] [] hq (by simp) (by simp) (by simp) row hmem f hf

theorem parseCsv_cr_outside_quotes_witness :
    ('"' ∉ "a\rb,c\nd".data) ∧ '\r' ∉ (['a', 'b'] : Str) :=
  ⟨by decide,
    parseCsv_cr_outside_quotes "a\rb,c\nd".data (by decide) [['a', 'b'], ['c']]
      (by decide) ['a', 'b'] (by decide)⟩

/-! ## Trailing-garbage tolerance of the amount parser -/

/-- `takeWhile` runs past a prefix whose elements all satisfy the
predicate. -/
theorem takeWhile_append_all {p : Char → Bool} :
    ∀ {a : Str} (t : Str), a.all p = true → (a ++ t).takeWhile p = a ++ t.takeWhile p := by
  intro a
  induction a with
  | nil => intro t _; simp
  | cons c a ih =>
    intro t h
    rw [List.all_cons, Bool.and_eq_true] at h
    rw [List.cons_append, List.takeWhile_cons_of_pos h.1, ih t h.2, List.cons_append]

/-- `dropWhile` removes a prefix whose elements all satisfy the predicate. -/
theorem dropWhile_append_all {p : Char → Bool} :
    ∀ {a : Str} (t : Str), a.all p = true → (a ++ t).dropWhile p = t.dropWhile p := by
  intro a
  induction a with
  | nil => intro t _; simp
  | cons c a ih =>
    intro t h
    rw [List.all_cons, Bool.and_eq_true] at h
    rw [List.cons_append, List.dropWhile_cons_of_pos h.1, ih t h.2]

/-- A decimal digit is not a JS whitespace character. -/
theorem isJsWs_eq_false_of_isDigit {c : Char} (h : c.isDigit = true) : isJsWs c = false := by
  by_contra hw
  rw [Bool.not_eq_false] at hw
  simp only [isJsWs, decide_eq_true_eq] at hw
  rcases hw with rfl | rfl | rfl | rfl | rfl | rfl | rfl <;> exact absurd h (by decide)

/-- A digit character is not one of the given special characters. -/
theorem isDigit_ne {c c' : Char} (h : c.isDigit = true) (h' : c'.isDigit = false) :
    c ≠ c' := by
  intro hc
  rw [hc, h'] at h
  exact Bool.noConfusion h

/-- `parseFloat` on a digit string, a dot, a digit string and then a
non-numeric tail (possibly empty) yields the leading numeral's value,
ignoring the tail. -/
theorem jsParseFloat_numeral_prefix (a b t : Str)
    (ha : a ≠ []) (had : a.all Char.isDigit = true) (hbd : b.all Char.isDigit = true)
    (ht : ∀ c cs, t = c :: cs → c.isDigit = false ∧ c ≠ 'e' ∧ c ≠ 'E') :
    jsParseFloat (a ++ '.' :: (b ++ t)) =
      some ((digitsVal a : ℚ) + (digitsVal b : ℚ) / (10 : ℚ) ^ b.length) := by
  obtain ⟨a0, a', rfl⟩ := List.exists_cons_of_ne_nil ha
  rw [List.all_cons, Bool.and_eq_true] at had
  obtain ⟨ha0, had'⟩ := had
  rw [List.cons_append]
  have hws : (a0 :: (a' ++ '.' :: (b ++ t))).dropWhile isJsWs =
      a0 :: (a' ++ '.' :: (b ++ t)) :=
    List.dropWhile_cons_of_neg (by
      rw [isJsWs_eq_false_of_isDigit ha0]; exact Bool.noConfusion)
  have hip : (a0 :: (a' ++ '.' :: (b ++ t))).takeWhile Char.isDigit = a0 :: a' := by
    rw [List.takeWhile_cons_of_pos ha0, takeWhile_append_all _ had',
      List.takeWhile_cons_of_neg (by decide), List.append_nil]
  have hr1 : (a0 :: (a' ++ '.' :: (b ++ t))).dropWhile Char.isDigit = '.' :: (b ++ t) := by
    rw [List.dropWhile_cons_of_pos ha0, dropWhile_append_all _ had',
      List.dropWhile_cons_of_neg (by decide)]
  have hfp : (b ++ t).takeWhile Char.isDigit = b := by
    rw [takeWhile_append_all _ hbd]
    cases t with
    | nil => simp
    | cons c cs =>
      rw [List.takeWhile_cons_of_neg (by rw [(ht c cs rfl).1]; exact Bool.noConfusion)]
      simp
  have hr2 : (b ++ t).dropWhile Char.isDigit = t := by
    rw [dropWhile_append_all _ hbd]
    cases t with
    | nil => simp
    | cons c cs =>
      rw [List.dropWhile_cons_of_neg (by rw [(ht c cs rfl).1]; exact Bool.noConfusion)]
  have hne : a0 ≠ '-' := isDigit_ne ha0 (by decide)
  have hnp : a0 ≠ '+' := isDigit_ne ha0 (by decide)
  have hor : ¬ (a0 = '-' ∨ a0 = '+') := by simp [hne, hnp]
  have htE : ¬ (t.headD ' ' = 'e' ∨ t.headD ' ' = 'E') := by
    cases t with
    | nil => simp
    | cons c cs =>
      have h3 := ht c cs rfl
      simp [h3.2.1, h3.2.2]
  simp only [jsParseFloat, hws, List.headD_cons, if_neg hne, if_neg hor, hip, hr1,
    List.tail_cons, hfp, hr2, if_neg htE]
  simp only [if_true]
  rw [if_neg (by simp)]
  rw [if_neg htE]
  rw [zpow_zero, mul_one, one_mul]

/-- C10 (implicit): the amount normalizer accepts cleaned text that is not a
pure numeral — whenever the text handed to `parseFloat` is a decimal numeral
followed by a trailing non-numeric character, the result is the leading
numeral's value (with any recorded negative marker applied), not absent;
e.g. `"45.00USD"` parses to 45. -/
theorem parseAmount_usd_example :
    parseAmount "45.00USD".data = some (45 : ℚ) := by
  with_unfolding_all decide

theorem parseAmount_trailing_garbage :
    (∀ raw a b t : Str,
      (amountCore raw).2 = a ++ '.' :: (b ++ t) →
      a ≠ [] → a.all Char.isDigit = true → b.all Char.isDigit = true →
      t ≠ [] →
      (t.headD ' ').isDigit = false → t.headD ' ' ≠ 'e' → t.headD ' ' ≠ 'E' →
      parseAmount raw =
        some (if (amountCore raw).1 then
            -((digitsVal a : ℚ) + (digitsVal b : ℚ) / (10 : ℚ) ^ b.length)
          else (digitsVal a : ℚ) + (digitsVal b : ℚ) / (10 : ℚ) ^ b.length)) ∧
    parseAmount "45.00USD".data = some (45 : ℚ) := by
  constructor
  · intro raw a b t hsplit ha had hbd _hne hd he hE
    have ht : ∀ c cs, t = c :: cs → c.isDigit = false ∧ c ≠ 'e' ∧ c ≠ 'E' := by
      intro c cs hcc
      rw [hcc] at hd he hE
      rw [List.headD_cons] at hd he hE
      exact ⟨hd, he, hE⟩
    have hjt : jsTrim raw ≠ [] := by
      intro hemp
      have h2 : (amountCore raw).2 = [] := by
        simp only [amountCore, hemp]
        rfl
      rw [hsplit] at h2
      rcases List.append_eq_nil.mp h2 with ⟨_, h3⟩
      exact List.cons_ne_nil _ _ h3
    unfold parseAmount
    rw [if_neg hjt, hsplit, jsParseFloat_numeral_prefix a b t ha had hbd ht]
    have hv : |(digitsVal a : ℚ) + (digitsVal b : ℚ) / (10 : ℚ) ^ b.length| =
        (digitsVal a : ℚ) + (digitsVal b : ℚ) / (10 : ℚ) ^ b.length :=
      abs_of_nonneg (by positivity)
    cases hfst : (amountCore raw).1 <;> simp [hv]
  · exact parseAmount_usd_example

theorem parseAmount_trailing_garbage_witness :
    (amountCore "45.00USD".data).2 = "45".data ++ '.' :: ("00".data ++ "USD".data) ∧
      parseAmount "45.00USD".data =
        some (if (amountCore "45.00USD".data).1 then
            -((digitsVal "45".data : ℚ) +
              (digitsVal "00".data : ℚ) / (10 : ℚ) ^ ("00".data).length)
          else (digitsVal "45".data : ℚ) +
            (digitsVal "00".data : ℚ) / (10 : ℚ) ^ ("00".data).length) :=
  ⟨by decide,
    parseAmount_trailing_garbage.1 "45.00USD".data "45".data "00".data "USD".data
      (by decide) (by decide) (by decide) (by decide) (by decide) (by decide) (by decide)
      (by decide)⟩

/-! ## Map and string-order lemmas for the deduplicator -/

theorem mapGet_mapSet_self {β : Type} (m : List (Str × β)) (k : Str) (v : β) :
    mapGet (mapSet m k v) k = some v := by
  induction m with
  | nil => simp [mapSet, mapGet]
  | cons p rest ih =>
    by_cases h : p.1 = k
    · simp [mapSet, mapGet, h]
    · simp [mapSet, mapGet, h, ih]

theorem mapGet_mapSet_ne {β : Type} (m : List (Str × β)) (k k' : Str) (v : β)
    (h : k' ≠ k) : mapGet (mapSet m k v) k' = mapGet m k' := by
  induction m with
  | nil =>
    show (if k = k' then some v else mapGet [] k') = mapGet [] k'
    rw [if_neg (fun hh => h hh.symm)]
  | cons p rest ih =>
    by_cases hp : p.1 = k
    · simp only [mapSet, if_pos hp, mapGet]
      rw [if_neg (fun hh => h hh.symm), if_neg (by rw [hp]; exact fun hh => h hh.symm)]
    · simp only [mapSet, if_neg hp, mapGet]
      by_cases hk : p.1 = k'
      · rw [if_pos hk, if_pos hk]
      · rw [if_neg hk, if_neg hk, ih]

theorem keys_mapSet_of_none {β : Type} (m : List (Str × β)) (k : Str) (v : β)
    (h : mapGet m k = none) :
    (mapSet m k v).map Prod.fst = m.map Prod.fst ++ [k] := by
  induction m with
  | nil => simp [mapSet]
  | cons p rest ih =>
    by_cases hp : p.1 = k
    · rw [mapGet, if_pos hp] at h
      exact Option.noConfusion h
    · rw [mapGet, if_neg hp] at h
      simp [mapSet, hp, ih h]

theorem keys_mapSet_of_some {β : Type} (m : List (Str × β)) (k : Str) (v w : β)
    (h : mapGet m k = some w) :
    (mapSet m k v).map Prod.fst = m.map Prod.fst := by
  induction m with
  | nil => rw [mapGet] at h; exact Option.noConfusion h
  | cons p rest ih =>
    by_cases hp : p.1 = k
    · simp [mapSet, hp]
    · rw [mapGet, if_neg hp] at h
      simp [mapSet, hp, ih h]

theorem mapGet_eq_none_iff {β : Type} (m : List (Str × β)) (k : Str) :
    mapGet m k = none ↔ k ∉ m.map Prod.fst := by
  induction m with
  | nil => simp [mapGet]
  | cons p rest ih =>
    by_cases hp : p.1 = k
    · simp [mapGet, hp]
    · have hkp : k ≠ p.1 := fun hh => hp hh.symm
      simp [mapGet, hp, ih, hkp]

theorem keys_mapSet_nodup {β : Type} (m : List (Str × β)) (k : Str) (v : β)
    (h : (m.map Prod.fst).Nodup) : ((mapSet m k v).map Prod.fst).Nodup := by
  cases hg : mapGet m k with
  | none =>
    rw [keys_mapSet_of_none m k v hg]
    have hk : k ∉ m.map Prod.fst := (mapGet_eq_none_iff m k).mp hg
    exact List.Nodup.append h (List.nodup_singleton k) (by simpa using hk)
  | some w => rw [keys_mapSet_of_some m k v w hg]; exact h

theorem mem_keys_mapSet {β : Type} (m : List (Str × β)) (k : Str) (v : β) (d : Str) :
    d ∈ (mapSet m k v).map Prod.fst ↔ d ∈ m.map Prod.fst ∨ d = k := by
  cases hg : mapGet m k with
  | none => rw [keys_mapSet_of_none m k v hg]; simp
  | some w =>
    rw [keys_mapSet_of_some m k v w hg]
    constructor
    · exact fun h => Or.inl h
    · rintro (h | rfl)
      · exact h
      · by_contra hk
        rw [← mapGet_eq_none_iff] at hk
        rw [hk] at hg
        exact Option.noConfusion hg

theorem mem_mapSet {β : Type} (m : List (Str × β)) (k : Str) (v : β) (p : Str × β)
    (h : p ∈ mapSet m k v) : p = (k, v) ∨ p ∈ m := by
  induction m with
  | nil => simp [mapSet] at h; exact Or.inl h
  | cons q rest ih =>
    by_cases hq : q.1 = k
    · rw [mapSet, if_pos hq] at h
      rcases List.mem_cons.mp h with h2 | h2
      · exact Or.inl h2
      · exact Or.inr (List.mem_cons_of_mem q h2)
    · rw [mapSet, if_neg hq] at h
      rcases List.mem_cons.mp h with h2 | h2
      · exact Or.inr (by rw [h2]; exact List.mem_cons_self q rest)
      · rcases ih h2 with h3 | h3
        · exact Or.inl h3
        · exact Or.inr (List.mem_cons_of_mem q h3)

theorem mapGet_of_mem_nodup {β : Type} (m : List (Str × β)) (k : Str) (v : β)
    (hn : (m.map Prod.fst).Nodup) (h : (k, v) ∈ m) : mapGet m k = some v := by
  induction m with
  | nil => cases h
  | cons p rest ih =>
    rw [List.map_cons, List.nodup_cons] at hn
    rcases List.mem_cons.mp h with h2 | h2
    · rw [mapGet, if_pos (by rw [h2.symm])]
      rw [show p = (k, v) from h2.symm]
    · have hk : k ∈ rest.map Prod.fst := List.mem_map.mpr ⟨(k, v), h2, rfl⟩
      have hne : ¬ p.1 = k := fun hh => hn.1 (by rw [hh]; exact hk)
      rw [mapGet, if_neg hne, ih hn.2 h2]

/-! String-order facts for the date sort. -/

theorem strLe_total : ∀ a b : Str, strLe a b = true ∨ strLe b a = true := by
  intro a
  induction a with
  | nil => intro b; exact Or.inl rfl
  | cons x xs ih =>
    intro b
    cases b with
    | nil => exact Or.inr rfl
    | cons y ys =>
      rcases lt_trichotomy x y with h | h | h
      · left; simp [strLe, h]
      · subst h
        rcases ih ys with h2 | h2
        · left; simp [strLe, lt_irrefl, h2]
        · right; simp [strLe, lt_irrefl, h2]
      · right; simp [strLe, h]

theorem strLe_trans : ∀ a b c : Str, strLe a b = true → strLe b c = true →
    strLe a c = true := by
  intro a
  induction a with
  | nil => intro b c _ _; rfl
  | cons x xs ih =>
    intro b c hab hbc
    cases b with
    | nil => simp [strLe] at hab
    | cons y ys =>
      cases c with
      | nil => simp [strLe] at hbc
      | cons z zs =>
        rcases lt_trichotomy x y with h1 | h1 | h1
        · rcases lt_trichotomy y z with h2 | h2 | h2
          · simp [strLe, lt_trans h1 h2]
          · subst h2; simp [strLe, h1]
          · simp [strLe, lt_asymm h2, h2] at hbc
        · subst h1
          rcases lt_trichotomy x z with h2 | h2 | h2
          · simp [strLe, h2]
          · subst h2
            rw [show strLe (x :: xs) (x :: ys) =
              strLe xs ys from by simp [strLe, lt_irrefl]] at hab
            rw [show strLe (x :: ys) (x :: zs) =
              strLe ys zs from by simp [strLe, lt_irrefl]] at hbc
            simp [strLe, lt_irrefl, ih ys zs hab hbc]
          · simp [strLe, lt_asymm h2, h2] at hbc
        · simp [strLe, lt_asymm h1, h1] at hab

theorem strLt_of_strLe_of_ne : ∀ a b : Str, strLe a b = true → a ≠ b →
    strLt a b = true := by
  intro a
  induction a with
  | nil =>
    intro b h hne
    cases b with
    | nil => exact absurd rfl hne
    | cons y ys => rfl
  | cons x xs ih =>
    intro b h hne
    cases b with
    | nil => simp [strLe] at h
    | cons y ys =>
      rcases lt_trichotomy x y with h1 | h1 | h1
      · simp [strLt, h1]
      · subst h1
        have hxy : xs ≠ ys := fun he => hne (by rw [he])
        have h2 := ih ys (by simpa [strLe, lt_irrefl] using h) hxy
        simp [strLt, lt_irrefl, h2]
      · simp [strLe, lt_asymm h1, h1] at h

/-! ## Invariants of the balance-mode grouping loop -/

/-- Map entries produced by the balance loop are rows keyed by their own
nonempty date. -/
theorem dedupBalanceAux_aligned : ∀ (rows : List NormalizedRow)
    (m : List (Str × NormalizedRow)) (cnt : ℕ),
    (∀ p ∈ m, p.2.dateIso = some p.1 ∧ p.1 ≠ []) →
    ∀ p ∈ (dedupBalanceAux rows m cnt).1, p.2.dateIso = some p.1 ∧ p.1 ≠ [] := by
  intro rows
  induction rows with
  | nil => intro m cnt hm; exact hm
  | cons r rest ih =>
    intro m cnt hm
    cases hdi : r.dateIso with
    | none => simp only [dedupBalanceAux, hdi]; exact ih m cnt hm
    | some d =>
      by_cases hde : d = []
      · simp only [dedupBalanceAux, hdi, if_pos hde]
        exact ih m cnt hm
      · simp only [dedupBalanceAux, hdi, if_neg hde]
        refine ih _ _ ?_
        intro p hp
        rcases mem_mapSet m d r p hp with rfl | hp2
        · exact ⟨hdi, hde⟩
        · exact hm p hp2

/-- The balance loop preserves duplicate-freeness of the map's keys. -/
theorem dedupBalanceAux_nodup : ∀ (rows : List NormalizedRow)
    (m : List (Str × NormalizedRow)) (cnt : ℕ),
    (m.map Prod.fst).Nodup → ((dedupBalanceAux rows m cnt).1.map Prod.fst).Nodup := by
  intro rows
  induction rows with
  | nil => intro m cnt hm; exact hm
  | cons r rest ih =>
    intro m cnt hm
    cases hdi : r.dateIso with
    | none => simp only [dedupBalanceAux, hdi]; exact ih m cnt hm
    | some d =>
      by_cases hde : d = []
      · simp only [dedupBalanceAux, hdi, if_pos hde]; exact ih m cnt hm
      · simp only [dedupBalanceAux, hdi, if_neg hde]
        exact ih _ _ (keys_mapSet_nodup m d r hm)

/-- A date is a key of the balance loop's final map iff it was already a key
or some processed row carries it. -/
theorem dedupBalanceAux_mem_keys : ∀ (rows : List NormalizedRow)
    (m : List (Str × NormalizedRow)) (cnt : ℕ) (d : Str),
    d ∈ ((dedupBalanceAux rows m cnt).1.map Prod.fst) ↔
      d ∈ m.map Prod.fst ∨ ∃ r ∈ rows, r.dateIso = some d ∧ d ≠ [] := by
  intro rows
  induction rows with
  | nil => intro m cnt d; simp [dedupBalanceAux]
  | cons r rest ih =>
    intro m cnt d
    cases hdi : r.dateIso with
    | none =>
      simp only [dedupBalanceAux, hdi]
      rw [ih]
      constructor
      · rintro (h | ⟨r', hr', h2⟩)
        · exact Or.inl h
        · exact Or.inr ⟨r', List.mem_cons_of_mem r hr', h2⟩
      · rintro (h | ⟨r', hr', h2⟩)
        · exact Or.inl h
        · rcases List.mem_cons.mp hr' with rfl | hr2
          · rw [hdi] at h2; exact Option.noConfusion h2.1
          · exact Or.inr ⟨r', hr2, h2⟩
    | some d' =>
      by_cases hde : d' = []
      · simp only [dedupBalanceAux, hdi, if_pos hde]
        rw [ih]
        constructor
        · rintro (h | ⟨r', hr', h2⟩)
          · exact Or.inl h
          · exact Or.inr ⟨r', List.mem_cons_of_mem r hr', h2⟩
        · rintro (h | ⟨r', hr', h2⟩)
          · exact Or.inl h
          · rcases List.mem_cons.mp hr' with rfl | hr2
            · rw [hdi] at h2
              rw [hde] at h2
              have h3 := Option.some.inj h2.1
              exact absurd h3.symm h2.2
            · exact Or.inr ⟨r', hr2, h2⟩
      · simp only [dedupBalanceAux, hdi, if_neg hde]
        rw [ih, mem_keys_mapSet]
        constructor
        · rintro ((h | rfl) | ⟨r', hr', h2⟩)
          · exact Or.inl h
          · exact Or.inr ⟨r, List.mem_cons_self r rest, hdi, hde⟩
          · exact Or.inr ⟨r', List.mem_cons_of_mem r hr', h2⟩
        · rintro (h | ⟨r', hr', h2⟩)
          · exact Or.inl (Or.inl h)
          · rcases List.mem_cons.mp hr' with rfl | hr2
            · rw [hdi] at h2
              exact Or.inl (Or.inr (Option.some.inj h2.1).symm)
            · exact Or.inr ⟨r', hr2, h2⟩

/-- Lookup after the balance loop: the last processed row with a given
(nonempty) date wins, falling back to the preexisting map entry. -/
theorem dedupBalanceAux_get (d : Str) (hd : d ≠ []) : ∀ (rows : List NormalizedRow)
    (m : List (Str × NormalizedRow)) (cnt : ℕ),
    mapGet (dedupBalanceAux rows m cnt).1 d =
      ((rows.filter (fun r => r.dateIso = some d)).getLast?).elim (mapGet m d) some := by
  intro rows
  induction rows with
  | nil => intro m cnt; simp [dedupBalanceAux]
  | cons r rest ih =>
    intro m cnt
    cases hdi : r.dateIso with
    | none =>
      simp only [dedupBalanceAux, hdi]
      rw [ih, List.filter_cons, if_neg (by simp [hdi])]
    | some d' =>
      by_cases hde : d' = []
      · simp only [dedupBalanceAux, hdi, if_pos hde]
        rw [ih, List.filter_cons, if_neg (by subst hde; simp [hdi, Ne.symm hd, hd])]
      · simp only [dedupBalanceAux, hdi, if_neg hde]
        by_cases hdd : d' = d
        · subst hdd
          rw [ih, List.filter_cons, if_pos (by simp [hdi])]
          cases hfl : ((rest.filter (fun r => r.dateIso = some d')).getLast?) with
          | none =>
            rw [List.getLast?_cons, hfl]
            show mapGet (mapSet m d' r) d' = some r
            exact mapGet_mapSet_self m d' r
          | some x =>
            rw [List.getLast?_cons, hfl]
            rfl
        · rw [ih, List.filter_cons, if_neg (by simp [hdi, hdd]),
            mapGet_mapSet_ne m d' d r (fun h => hdd h.symm)]

/-- Each processed row with a truthy date bumps `duplicateCount` or grows the
key set by one, so count plus distinct keys equals rows processed plus the
initial state. -/
theorem dedupBalanceAux_cnt : ∀ (rows : List NormalizedRow)
    (m : List (Str × NormalizedRow)) (cnt : ℕ),
    (∀ r ∈ rows, strTruthy r.dateIso = true) →
    (dedupBalanceAux rows m cnt).2 + ((dedupBalanceAux rows m cnt).1.map Prod.fst).length
      = cnt + (m.map Prod.fst).length + rows.length := by
  intro rows
  induction rows with
  | nil => intro m cnt _; simp [dedupBalanceAux]
  | cons r rest ih =>
    intro m cnt hv
    have hr := hv r (List.mem_cons_self r rest)
    cases hdi : r.dateIso with
    | none => rw [hdi] at hr; exact absurd hr (by simp [strTruthy])
    | some d =>
      have hde : d ≠ [] := by
        rw [hdi] at hr
        simpa [strTruthy] using hr
      simp only [dedupBalanceAux, hdi, if_neg hde]
      cases hg : mapGet m d with
      | none =>
        simp only [Option.isSome_none]
        rw [if_neg Bool.false_ne_true]
        rw [ih _ _ (fun r' hr' => hv r' (List.mem_cons_of_mem r hr')),
          keys_mapSet_of_none m d r hg]
        simp only [List.length_append, List.length_cons, List.length_nil]
        omega
      | some w =>
        simp only [Option.isSome_some, eq_self_iff_true, if_true]
        rw [ih _ _ (fun r' hr' => hv r' (List.mem_cons_of_mem r hr')),
          keys_mapSet_of_some m d r w hg]
        simp only [List.length_cons]
        omega

/-! ## Invariants of the transactions-mode grouping loop -/

/-- Map entries produced by the transactions loop are keyed by their own
nonempty stored date. -/
theorem dedupTransactionsAux_aligned : ∀ (rows : List NormalizedRow)
    (m : List (Str × TxEntry)) (cnt : ℕ),
    (∀ p ∈ m, p.2.dateIso = p.1 ∧ p.1 ≠ []) →
    ∀ p ∈ (dedupTransactionsAux rows m cnt).1, p.2.dateIso = p.1 ∧ p.1 ≠ [] := by
  intro rows
  induction rows with
  | nil => intro m cnt hm; exact hm
  | cons r rest ih =>
    intro m cnt hm
    cases hdi : r.dateIso with
    | none => simp only [dedupTransactionsAux, hdi]; exact ih m cnt hm
    | some d =>
      cases hai : r.amount with
      | none => simp only [dedupTransactionsAux, hdi, hai]; exact ih m cnt hm
      | some a =>
        by_cases hde : d = []
        · simp only [dedupTransactionsAux, hdi, hai, if_pos hde]
          exact ih m cnt hm
        · simp only [dedupTransactionsAux, hdi, hai, if_neg hde]
          refine ih _ _ ?_
          intro p hp
          rcases mem_mapSet m d _ p hp with rfl | hp2
          · exact ⟨rfl, hde⟩
          · exact hm p hp2

/-- The transactions loop preserves duplicate-freeness of the map's keys. -/
theorem dedupTransactionsAux_nodup : ∀ (rows : List NormalizedRow)
    (m : List (Str × TxEntry)) (cnt : ℕ),
    (m.map Prod.fst).Nodup → ((dedupTransactionsAux rows m cnt).1.map Prod.fst).Nodup := by
  intro rows
  induction rows with
  | nil => intro m cnt hm; exact hm
  | cons r rest ih =>
    intro m cnt hm
    cases hdi : r.dateIso with
    | none => simp only [dedupTransactionsAux, hdi]; exact ih m cnt hm
    | some d =>
      cases hai : r.amount with
      | none => simp only [dedupTransactionsAux, hdi, hai]; exact ih m cnt hm
      | some a =>
        by_cases hde : d = []
        · simp only [dedupTransactionsAux, hdi, hai, if_pos hde]; exact ih m cnt hm
        · simp only [dedupTransactionsAux, hdi, hai, if_neg hde]
          exact ih _ _ (keys_mapSet_nodup m d _ hm)

/-- A date is a key of the transactions loop's final map iff it was already a
key or some processed row (valid date and non-null amount) carries it. -/
theorem dedupTransactionsAux_mem_keys : ∀ (rows : List NormalizedRow)
    (m : List (Str × TxEntry)) (cnt : ℕ) (d : Str),
    d ∈ ((dedupTransactionsAux rows m cnt).1.map Prod.fst) ↔
      d ∈ m.map Prod.fst ∨
        ∃ r ∈ rows, r.dateIso = some d ∧ d ≠ [] ∧ r.amount ≠ none := by
  intro rows
  induction rows with
  | nil => intro m cnt d; simp [dedupTransactionsAux]
  | cons r rest ih =>
    intro m cnt d
    cases hdi : r.dateIso with
    | none =>
      simp only [dedupTransactionsAux, hdi]
      rw [ih]
      constructor
      · rintro (h | ⟨r', hr', h2⟩)
        · exact Or.inl h
        · exact Or.inr ⟨r', List.mem_cons_of_mem r hr', h2⟩
      · rintro (h | ⟨r', hr', h2⟩)
        · exact Or.inl h
        · rcases List.mem_cons.mp hr' with rfl | hr2
          · rw [hdi] at h2; exact Option.noConfusion h2.1
          · exact Or.inr ⟨r', hr2, h2⟩
    | some d' =>
      cases hai : r.amount with
      | none =>
        simp only [dedupTransactionsAux, hdi, hai]
        rw [ih]
        constructor
        · rintro (h | ⟨r', hr', h2⟩)
          · exact Or.inl h
          · exact Or.inr ⟨r', List.mem_cons_of_mem r hr', h2⟩
        · rintro (h | ⟨r', hr', h2⟩)
          · exact Or.inl h
          · rcases List.mem_cons.mp hr' with rfl | hr2
            · rw [hai] at h2; exact absurd rfl h2.2.2
            · exact Or.inr ⟨r', hr2, h2⟩
      | some a =>
        by_cases hde : d' = []
        · simp only [dedupTransactionsAux, hdi, hai, if_pos hde]
          rw [ih]
          constructor
          · rintro (h | ⟨r', hr', h2⟩)
            · exact Or.inl h
            · exact Or.inr ⟨r', List.mem_cons_of_mem r hr', h2⟩
          · rintro (h | ⟨r', hr', h2⟩)
            · exact Or.inl h
            · rcases List.mem_cons.mp hr' with rfl | hr2
              · rw [hdi] at h2
                rw [hde] at h2
                exact absurd (Option.some.inj h2.1).symm h2.2.1
              · exact Or.inr ⟨r', hr2, h2⟩
        · simp only [dedupTransactionsAux, hdi, hai, if_neg hde]
          rw [ih, mem_keys_mapSet]
          constructor
          · rintro ((h | rfl) | ⟨r', hr', h2⟩)
            · exact Or.inl h
            · exact Or.inr ⟨r, List.mem_cons_self r rest, hdi, hde, by rw [hai]; simp⟩
            · exact Or.inr ⟨r', List.mem_cons_of_mem r hr', h2⟩
          · rintro (h | ⟨r', hr', h2⟩)
            · exact Or.inl (Or.inl h)
            · rcases List.mem_cons.mp hr' with rfl | hr2
              · rw [hdi] at h2
                exact Or.inl (Or.inr (Option.some.inj h2.1).symm)
              · exact Or.inr ⟨r', hr2, h2⟩

/-- Amount characterization for the transactions loop: a final entry's amount
is the initial entry's amount (0 when absent) plus the sum of all processed
amounts carrying that date. -/
theorem dedupTransactionsAux_sum (d : Str) (hd : d ≠ []) : ∀ (rows : List NormalizedRow)
    (m : List (Str × TxEntry)) (cnt : ℕ) (e : TxEntry),
    mapGet (dedupTransactionsAux rows m cnt).1 d = some e →
    e.amount = (mapGet m d).elim 0 TxEntry.amount +
      ((rows.filter (fun r => r.dateIso = some d)).filterMap NormalizedRow.amount).sum := by
  intro rows
  induction rows with
  | nil =>
    intro m cnt e hget
    rw [show (dedupTransactionsAux [] m cnt).1 = m from rfl] at hget
    rw [hget]
    simp
  | cons r rest ih =>
    intro m cnt e hget
    cases hdi : r.dateIso with
    | none =>
      rw [show dedupTransactionsAux (r :: rest) m cnt
          = dedupTransactionsAux rest m cnt from by
        simp only [dedupTransactionsAux, hdi]] at hget
      rw [List.filter_cons, if_neg (by simp [hdi])]
      exact ih m cnt e hget
    | some d' =>
      cases hai : r.amount with
      | none =>
        rw [show dedupTransactionsAux (r :: rest) m cnt
            = dedupTransactionsAux rest m cnt from by
          simp only [dedupTransactionsAux, hdi, hai]] at hget
        by_cases hdd : d' = d
        · rw [List.filter_cons, if_pos (by simp [hdi, hdd])]
          rw [List.filterMap_cons_none hai]
          exact ih m cnt e hget
        · rw [List.filter_cons, if_neg (by simp [hdi, hdd])]
          exact ih m cnt e hget
      | some a =>
        by_cases hde : d' = []
        · rw [show dedupTransactionsAux (r :: rest) m cnt
              = dedupTransactionsAux rest m cnt from by
            simp only [dedupTransactionsAux, hdi, hai, if_pos hde]] at hget
          rw [List.filter_cons, if_neg (by subst hde; simp [hdi, Ne.symm hd, hd])]
          exact ih m cnt e hget
        · rw [show dedupTransactionsAux (r :: rest) m cnt
              = dedupTransactionsAux rest
                  (mapSet m d' ⟨d', (match mapGet m d' with
                    | some e => e.amount | none => 0) + a⟩)
                  (if (mapGet m d').isSome then cnt + 1 else cnt) from by
            simp only [dedupTransactionsAux, hdi, hai, if_neg hde]] at hget
          by_cases hdd : d' = d
          · subst hdd
            have hstep := ih _ _ e hget
            rw [mapGet_mapSet_self] at hstep
            rw [List.filter_cons, if_pos (by simp [hdi])]
            rw [List.filterMap_cons_some hai]
            rw [hstep, List.sum_cons]
            cases hg : mapGet m d' <;> simp [hg] <;> ring
          · have hstep := ih _ _ e hget
            rw [mapGet_mapSet_ne m d' d _ (fun h => hdd h.symm)] at hstep
            rw [List.filter_cons, if_neg (by simp [hdi, hdd])]
            exact hstep

/-- Count invariant for the transactions loop over valid rows. -/
theorem dedupTransactionsAux_cnt : ∀ (rows : List NormalizedRow)
    (m : List (Str × TxEntry)) (cnt : ℕ),
    (∀ r ∈ rows, strTruthy r.dateIso = true ∧ r.amount ≠ none) →
    (dedupTransactionsAux rows m cnt).2 +
        ((dedupTransactionsAux rows m cnt).1.map Prod.fst).length
      = cnt + (m.map Prod.fst).length + rows.length := by
  intro rows
  induction rows with
  | nil => intro m cnt _; simp [dedupTransactionsAux]
  | cons r rest ih =>
    intro m cnt hv
    have hr := hv r (List.mem_cons_self r rest)
    cases hdi : r.dateIso with
    | none => rw [hdi] at hr; exact absurd hr.1 (by simp [strTruthy])
    | some d =>
      cases hai : r.amount with
      | none => rw [hai] at hr; exact absurd rfl hr.2
      | some a =>
        have hde : d ≠ [] := by
          have := hr.1
          rw [hdi] at this
          simpa [strTruthy] using this
        simp only [dedupTransactionsAux, hdi, hai, if_neg hde]
        cases hg : mapGet m d with
        | none =>
          simp only [Option.isSome_none]
          rw [if_neg Bool.false_ne_true]
          rw [ih _ _ (fun r' hr' => hv r' (List.mem_cons_of_mem r hr')),
            keys_mapSet_of_none m d _ hg]
          simp only [List.length_append, List.length_cons, List.length_nil]
          omega
        | some w =>
          simp only [Option.isSome_some, eq_self_iff_true, if_true]
          rw [ih _ _ (fun r' hr' => hv r' (List.mem_cons_of_mem r hr')),
            keys_mapSet_of_some m d _ w hg]
          simp only [List.length_cons]
          omega

/-- Every row emitted by balance-mode dedup is a final-map entry keyed by its
own nonempty date. -/
theorem dedupBalance_mem_entry (rows : List NormalizedRow) (e : NormalizedRow)
    (he : e ∈ (dedupBalance rows).1) :
    ∃ d, e.dateIso = some d ∧ d ≠ [] ∧
      mapGet (dedupBalanceAux rows [] 0).1 d = some e := by
  have hperm := List.mergeSort_perm
    ((dedupBalanceAux rows [] 0).1.map (fun p => p.2))
    (fun a b => strLe (a.dateIso.getD []) (b.dateIso.getD []))
  have he2 : e ∈ (dedupBalanceAux rows [] 0).1.map (fun p => p.2) :=
    hperm.mem_iff.mp he
  obtain ⟨p, hp, rfl⟩ := List.mem_map.mp he2
  have hal := dedupBalanceAux_aligned rows [] 0 (fun p hp => absurd hp (List.not_mem_nil p)) p hp
  have hnd := dedupBalanceAux_nodup rows [] 0 (by simp)
  exact ⟨p.1, hal.1, hal.2, mapGet_of_mem_nodup _ p.1 p.2 hnd hp⟩

/-- Every entry emitted by transactions-mode dedup is a final-map entry keyed
by its own nonempty date. -/
theorem dedupTransactions_mem_entry (rows : List NormalizedRow) (e : TxEntry)
    (he : e ∈ (dedupTransactions rows).1) :
    e.dateIso ≠ [] ∧ mapGet (dedupTransactionsAux rows [] 0).1 e.dateIso = some e := by
  have hperm := List.mergeSort_perm
    ((dedupTransactionsAux rows [] 0).1.map (fun p => p.2))
    (fun a b => strLe a.dateIso b.dateIso)
  have he2 : e ∈ (dedupTransactionsAux rows [] 0).1.map (fun p => p.2) :=
    hperm.mem_iff.mp he
  obtain ⟨p, hp, rfl⟩ := List.mem_map.mp he2
  have hal := dedupTransactionsAux_aligned rows [] 0
    (fun p hp => absurd hp (List.not_mem_nil p)) p hp
  have hnd := dedupTransactionsAux_nodup rows [] 0 (by simp)
  constructor
  · rw [hal.1]; exact hal.2
  · rw [hal.1]
    exact mapGet_of_mem_nodup _ p.1 p.2 hnd hp

/-- Conversely, every key of the balance loop's final map shows up as the
date of an emitted row. -/
theorem dedupBalance_mem_of_key (rows : List NormalizedRow) (d : Str)
    (hk : d ∈ ((dedupBalanceAux rows [] 0).1.map Prod.fst)) :
    ∃ e ∈ (dedupBalance rows).1, e.dateIso = some d := by
  obtain ⟨p, hp, rfl⟩ := List.mem_map.mp hk
  have hal := dedupBalanceAux_aligned rows [] 0 (fun p hp => absurd hp (List.not_mem_nil p)) p hp
  have hperm := List.mergeSort_perm
    ((dedupBalanceAux rows [] 0).1.map (fun p => p.2))
    (fun a b => strLe (a.dateIso.getD []) (b.dateIso.getD []))
  exact ⟨p.2, hperm.mem_iff.mpr (List.mem_map.mpr ⟨p, hp, rfl⟩), hal.1⟩

/-- Same for the transactions loop. -/
theorem dedupTransactions_mem_of_key (rows : List NormalizedRow) (d : Str)
    (hk : d ∈ ((dedupTransactionsAux rows [] 0).1.map Prod.fst)) :
    ∃ e ∈ (dedupTransactions rows).1, e.dateIso = d := by
  obtain ⟨p, hp, rfl⟩ := List.mem_map.mp hk
  have hal := dedupTransactionsAux_aligned rows [] 0
    (fun p hp => absurd hp (List.not_mem_nil p)) p hp
  have hperm := List.mergeSort_perm
    ((dedupTransactionsAux rows [] 0).1.map (fun p => p.2))
    (fun a b => strLe a.dateIso b.dateIso)
  exact ⟨p.2, hperm.mem_iff.mpr (List.mem_map.mpr ⟨p, hp, rfl⟩), hal.1⟩

/-- The balance loop's distinct keys are exactly the distinct dates of the
valid rows. -/
theorem dedupBalance_keys_length (rows : List NormalizedRow)
    (hv : ∀ r ∈ rows, strTruthy r.dateIso = true ∧ r.amount ≠ none) :
    ((dedupBalanceAux rows [] 0).1.map Prod.fst).length =
      (rows.filterMap NormalizedRow.dateIso).dedup.length := by
  apply List.Perm.length_eq
  rw [List.perm_ext_iff_of_nodup (dedupBalanceAux_nodup rows [] 0 (by simp))
    (List.nodup_dedup _)]
  intro d
  rw [dedupBalanceAux_mem_keys, List.mem_dedup, List.mem_filterMap]
  constructor
  · rintro (h | ⟨r, hr, h1, h2⟩)
    · exact absurd h (by simp)
    · exact ⟨r, hr, h1⟩
  · rintro ⟨r, hr, h1⟩
    have h2 := (hv r hr).1
    rw [h1] at h2
    right
    exact ⟨r, hr, h1, by simpa [strTruthy] using h2⟩

/-- Same for the transactions loop. -/
theorem dedupTransactions_keys_length (rows : List NormalizedRow)
    (hv : ∀ r ∈ rows, strTruthy r.dateIso = true ∧ r.amount ≠ none) :
    ((dedupTransactionsAux rows [] 0).1.map Prod.fst).length =
      (rows.filterMap NormalizedRow.dateIso).dedup.length := by
  apply List.Perm.length_eq
  rw [List.perm_ext_iff_of_nodup (dedupTransactionsAux_nodup rows [] 0 (by simp))
    (List.nodup_dedup _)]
  intro d
  rw [dedupTransactionsAux_mem_keys, List.mem_dedup, List.mem_filterMap]
  constructor
  · rintro (h | ⟨r, hr, h1, _, _⟩)
    · exact absurd h (by simp)
    · exact ⟨r, hr, h1⟩
  · rintro ⟨r, hr, h1⟩
    have h2 := (hv r hr).1
    rw [h1] at h2
    right
    exact ⟨r, hr, h1, by simpa [strTruthy] using h2, (hv r hr).2⟩

/-- C2: the deduplicator's mode-dependent policy.  In balance mode each
emitted row is the *last* input row carrying its date; in transactions mode
each emitted entry's amount is the *sum* of the amounts of the input rows
carrying its date; in both modes, for valid rows, `duplicateCount` is the
number of rows beyond the first occurrence of each date; and balance-mode
rows dated 2024-01-05 valued 100 then 150 produce the single entry
{2024-01-05, 150} with `duplicateCount` 1. -/
theorem dedupBalance_last_wins_example :
    dedupBalance
        [⟨2, [], [], some "2024-01-05".data, some 100⟩,
         ⟨3, [], [], some "2024-01-05".data, some 150⟩] =
      ([⟨3, [], [], some "2024-01-05".data, some 150⟩], 1) := by
  with_unfolding_all decide

theorem dedup_mode_policy :
    (∀ (rows : List NormalizedRow), ∀ e ∈ (dedupBalance rows).1,
      ∃ d, e.dateIso = some d ∧
        (rows.filter (fun r => r.dateIso = some d)).getLast? = some e) ∧
    (∀ (rows : List NormalizedRow), ∀ e ∈ (dedupTransactions rows).1,
      e.amount = ((rows.filter (fun r => r.dateIso = some e.dateIso)).filterMap
        NormalizedRow.amount).sum) ∧
    (∀ rows : List NormalizedRow,
      (∀ r ∈ rows, strTruthy r.dateIso = true ∧ r.amount ≠ none) →
      (dedupBalance rows).2 =
          rows.length - (rows.filterMap NormalizedRow.dateIso).dedup.length ∧
        (dedupTransactions rows).2 =
          rows.length - (rows.filterMap NormalizedRow.dateIso).dedup.length) ∧
    dedupBalance
        [⟨2, [], [], some "2024-01-05".data, some 100⟩,
         ⟨3, [], [], some "2024-01-05".data, some 150⟩] =
      ([⟨3, [], [], some "2024-01-05".data, some 150⟩], 1) := by
  refine ⟨?_, ?_, ?_, dedupBalance_last_wins_example⟩
  · intro rows e he
    obtain ⟨d, hdi, hdne, hget⟩ := dedupBalance_mem_entry rows e he
    rw [dedupBalanceAux_get d hdne rows [] 0] at hget
    cases hfl : (rows.filter (fun r => r.dateIso = some d)).getLast? with
    | none =>
      rw [hfl] at hget
      exact absurd hget (by simp [mapGet])
    | some x =>
      rw [hfl] at hget
      exact ⟨d, hdi, by rw [hfl, Option.some.inj hget]⟩
  · intro rows e he
    obtain ⟨hdne, hget⟩ := dedupTransactions_mem_entry rows e he
    have hsum := dedupTransactionsAux_sum e.dateIso hdne rows [] 0 e hget
    simpa [mapGet] using hsum
  · intro rows hv
    have hb := dedupBalanceAux_cnt rows [] 0 (fun r hr => (hv r hr).1)
    have ht := dedupTransactionsAux_cnt rows [] 0 hv
    have hbl := dedupBalance_keys_length rows hv
    have htl := dedupTransactions_keys_length rows hv
    simp only [List.map_nil, List.length_nil] at hb ht
    constructor
    · show (dedupBalanceAux rows [] 0).2 = _
      omega
    · show (dedupTransactionsAux rows [] 0).2 = _
      omega

theorem dedup_mode_policy_witness :
    (⟨3, [], [], some "2024-01-05".data, some (150 : ℚ)⟩ : NormalizedRow) ∈
        (dedupBalance
          [⟨2, [], [], some "2024-01-05".data, some 100⟩,
           ⟨3, [], [], some "2024-01-05".data, some 150⟩]).1 ∧
      ∃ d, (⟨3, [], [], some "2024-01-05".data, some (150 : ℚ)⟩ :
          NormalizedRow).dateIso = some d ∧
        (([⟨2, [], [], some "2024-01-05".data, some 100⟩,
           ⟨3, [], [], some "2024-01-05".data, some 150⟩] :
            List NormalizedRow).filter (fun r => r.dateIso = some d)).getLast? =
          some ⟨3, [], [], some "2024-01-05".data, some 150⟩ :=
  ⟨by with_unfolding_all decide,
    dedup_mode_policy.1
      [⟨2, [], [], some "2024-01-05".data, some 100⟩,
       ⟨3, [], [], some "2024-01-05".data, some 150⟩]
      ⟨3, [], [], some "2024-01-05".data, some 150⟩
      (by with_unfolding_all decide)⟩

/-- C9: in both statement modes the deduplicated output is strictly
increasing in ISO date (lexicographic comparison) and contains exactly one
entry per distinct date appearing among the valid rows: every distinct input
date appears, and the strict ordering forbids two entries sharing a date. -/
theorem dedup_sorted_unique (rows : List NormalizedRow)
    (hv : ∀ r ∈ rows, strTruthy r.dateIso = true ∧ r.amount ≠ none) :
    (List.Pairwise (fun a b : NormalizedRow =>
        strLt (a.dateIso.getD []) (b.dateIso.getD []) = true) (dedupBalance rows).1 ∧
      ∀ d : Str, (∃ e ∈ (dedupBalance rows).1, e.dateIso = some d) ↔
        ∃ r ∈ rows, r.dateIso = some d) ∧
    (List.Pairwise (fun a b : TxEntry => strLt a.dateIso b.dateIso = true)
        (dedupTransactions rows).1 ∧
      ∀ d : Str, (∃ e ∈ (dedupTransactions rows).1, e.dateIso = d) ↔
        ∃ r ∈ rows, r.dateIso = some d) := by
  constructor
  · constructor
    · have hsort : List.Pairwise
          (fun a b : NormalizedRow =>
            strLe (a.dateIso.getD []) (b.dateIso.getD []) = true)
          (((dedupBalanceAux rows [] 0).1.map (fun p => p.2)).mergeSort
            (fun a b => strLe (a.dateIso.getD []) (b.dateIso.getD []))) :=
        @List.sorted_mergeSort NormalizedRow
          (fun a b => strLe (a.dateIso.getD []) (b.dateIso.getD []))
          (fun a b c hab hbc => strLe_trans _ _ _ hab hbc)
          (fun a b => by
            rcases strLe_total (a.dateIso.getD []) (b.dateIso.getD []) with h | h <;>
              simp [h])
          ((dedupBalanceAux rows [] 0).1.map (fun p => p.2))
      have hkeysmap : ((dedupBalanceAux rows [] 0).1.map (fun p => p.2)).map
          (fun e : NormalizedRow => e.dateIso.getD []) =
            (dedupBalanceAux rows [] 0).1.map Prod.fst := by
        rw [List.map_map]
        refine List.map_congr_left ?_
        intro p hp
        have hal := dedupBalanceAux_aligned rows [] 0
          (fun p hp => absurd hp (List.not_mem_nil p)) p hp
        show p.2.dateIso.getD [] = p.1
        rw [hal.1]
        rfl
      have hnod2 : ((dedupBalance rows).1.map
          (fun e : NormalizedRow => e.dateIso.getD [])).Nodup := by
        have hpm := (List.mergeSort_perm
          ((dedupBalanceAux rows [] 0).1.map (fun p => p.2))
          (fun a b => strLe (a.dateIso.getD []) (b.dateIso.getD []))).map
          (fun e : NormalizedRow => e.dateIso.getD [])
        refine (hpm.nodup_iff).mpr ?_
        rw [hkeysmap]
        exact dedupBalanceAux_nodup rows [] 0 (by simp)
      have hp2 : List.Pairwise (fun a b : NormalizedRow =>
          a.dateIso.getD [] ≠ b.dateIso.getD []) (dedupBalance rows).1 := by
        rw [List.Nodup] at hnod2
        exact List.pairwise_map.mp hnod2
      exact (hsort.and hp2).imp (fun h => strLt_of_strLe_of_ne _ _ h.1 h.2)
    · intro d
      constructor
      · rintro ⟨e, he, hdi⟩
        obtain ⟨d', hdi', hdne, hget⟩ := dedupBalance_mem_entry rows e he
        rw [hdi] at hdi'
        obtain rfl := Option.some.inj hdi'
        have hk : d ∈ (dedupBalanceAux rows [] 0).1.map Prod.fst := by
          by_contra hk
          rw [← mapGet_eq_none_iff] at hk
          rw [hk] at hget
          exact Option.noConfusion hget
        rcases (dedupBalanceAux_mem_keys rows [] 0 d).mp hk with h | ⟨r, hr, h1, _⟩
        · exact absurd h (by simp)
        · exact ⟨r, hr, h1⟩
      · rintro ⟨r, hr, h1⟩
        have h2 := (hv r hr).1
        rw [h1] at h2
        have hdne : d ≠ [] := by simpa [strTruthy] using h2
        exact dedupBalance_mem_of_key rows d
          ((dedupBalanceAux_mem_keys rows [] 0 d).mpr (Or.inr ⟨r, hr, h1, hdne⟩))
  · constructor
    · have hsort : List.Pairwise
          (fun a b : TxEntry => strLe a.dateIso b.dateIso = true)
          (((dedupTransactionsAux rows [] 0).1.map (fun p => p.2)).mergeSort
            (fun a b => strLe a.dateIso b.dateIso)) :=
        @List.sorted_mergeSort TxEntry
          (fun a b => strLe a.dateIso b.dateIso)
          (fun a b c hab hbc => strLe_trans _ _ _ hab hbc)
          (fun a b => by
            rcases strLe_total a.dateIso b.dateIso with h | h <;> simp [h])
          ((dedupTransactionsAux rows [] 0).1.map (fun p => p.2))
      have hkeysmap : ((dedupTransactionsAux rows [] 0).1.map (fun p => p.2)).map
          (fun e : TxEntry => e.dateIso) =
            (dedupTransactionsAux rows [] 0).1.map Prod.fst := by
        rw [List.map_map]
        refine List.map_congr_left ?_
        intro p hp
        have hal := dedupTransactionsAux_aligned rows [] 0
          (fun p hp => absurd hp (List.not_mem_nil p)) p hp
        exact hal.1
      have hnod2 : ((dedupTransactions rows).1.map
          (fun e : TxEntry => e.dateIso)).Nodup := by
        have hpm := (List.mergeSort_perm
          ((dedupTransactionsAux rows [] 0).1.map (fun p => p.2))
          (fun a b => strLe a.dateIso b.dateIso)).map (fun e : TxEntry => e.dateIso)
        refine (hpm.nodup_iff).mpr ?_
        rw [hkeysmap]
        exact dedupTransactionsAux_nodup rows [] 0 (by simp)
      have hp2 : List.Pairwise (fun a b : TxEntry => a.dateIso ≠ b.dateIso)
          (dedupTransactions rows).1 := by
        rw [List.Nodup] at hnod2
        exact List.pairwise_map.mp hnod2
      exact (hsort.and hp2).imp (fun h => strLt_of_strLe_of_ne _ _ h.1 h.2)
    · intro d
      constructor
      · rintro ⟨e, he, hdi⟩
        obtain ⟨hdne, hget⟩ := dedupTransactions_mem_entry rows e he
        rw [hdi] at hdne hget
        have hk : d ∈ (dedupTransactionsAux rows [] 0).1.map Prod.fst := by
          by_contra hk
          rw [← mapGet_eq_none_iff] at hk
          rw [hk] at hget
          exact Option.noConfusion hget
        rcases (dedupTransactionsAux_mem_keys rows [] 0 d).mp hk with h | ⟨r, hr, h1, _⟩
        · exact absurd h (by simp)
        · exact ⟨r, hr, h1⟩
      · rintro ⟨r, hr, h1⟩
        have h2 := (hv r hr).1
        rw [h1] at h2
        have hdne : d ≠ [] := by simpa [strTruthy] using h2
        exact dedupTransactions_mem_of_key rows d
          ((dedupTransactionsAux_mem_keys rows [] 0 d).mpr
            (Or.inr ⟨r, hr, h1, hdne, (hv r hr).2⟩))

theorem dedup_sorted_unique_witness :
    (∀ r ∈ ([⟨2, [], [], some "2024-01-06".data, some 100⟩,
        ⟨3, [], [], some "2024-01-05".data, some 150⟩] : List NormalizedRow),
      strTruthy r.dateIso = true ∧ r.amount ≠ none) ∧
      List.Pairwise (fun a b : NormalizedRow =>
          strLt (a.dateIso.getD []) (b.dateIso.getD []) = true)
        (dedupBalance
          [⟨2, [], [], some "2024-01-06".data, some 100⟩,
           ⟨3, [], [], some "2024-01-05".data, some 150⟩]).1 :=
  ⟨by with_unfolding_all decide,
    (dedup_sorted_unique
      [⟨2, [], [], some "2024-01-06".data, some 100⟩,
       ⟨3, [], [], some "2024-01-05".data, some 150⟩]
      (by with_unfolding_all decide)).1.1⟩
